import Mathlib

/-!
Verification of the basal glucose polling and trigger library.

The Go package `dex` (trend directions, `Session.Tail`, `Session.Stream`)
and the Go package `trigger` (composable predicate triggers) are embedded
shallowly below.  Machine integers are modelled as `Int`/`Nat`; Go's
`float64` arithmetic in the `Delta` predicate is modelled exactly over `ℚ`;
fallible operations return `Option`/`Except`; the network is modelled as a
script of fetch/refresh results consumed by the retry loop; a nil-pointer
dereference (a Go panic) is modelled as `Option.none`.
-/

/-- Blood glucose trend direction: the `Dir` enumeration of the source,
constants `None` through `RateOutOfRange` with values 0 through 9. -/
inductive Dir where
  | None
  | DoubleUp
  | SingleUp
  | FortyFiveUp
  | Flat
  | FortyFiveDown
  | SingleDown
  | DoubleDown
  | NotComputable
  | RateOutOfRange
  deriving DecidableEq

/-- Arrow glyph of a direction: the `Dir.Arrow` method's switch, whose
`default` branch returns "?". -/
def Dir.Arrow (d : Dir) : String :=
  match d with
  | .None => ""
  | .DoubleUp => "⇈"
  | .SingleUp => "↑"
  | .FortyFiveUp => "⇗"
  | .Flat => "→"
  | .FortyFiveDown => "⇘"
  | .SingleDown => "↓"
  | .DoubleDown => "⇊"
  | _ => "?"

/-- The entries of the Go map `numToDir`. -/
def numToDirTable : List (Int × Dir) :=
  [(0, .None), (1, .DoubleUp), (2, .SingleUp), (3, .FortyFiveUp), (4, .Flat),
   (5, .FortyFiveDown), (6, .SingleDown), (7, .DoubleDown),
   (8, .NotComputable), (9, .RateOutOfRange)]

/-- Indexing the Go map `numToDir[n]`: a key missing from the map yields the
zero value of `Dir`, which is `Dir.None` (value 0). -/
def numToDir (n : Int) : Dir := (numToDirTable.lookup n).getD .None

/-- One glucose entry, the `Entry` struct.  `Time` is built by the source as
`time.Unix(msecs/1000, 0)`, so it is modelled as whole seconds since the
epoch.  `Raw` is never assigned by `Tail`, so it stays at the zero value. -/
structure Entry where
  time : Int
  value : Int
  dir : Dir
  raw : String
  deriving DecidableEq

/-- Result of one `client.Do` call inside `Session.Tail`: either a transport
error or a response carrying an HTTP status code. -/
inductive FetchResult where
  | err
  | status (code : Nat)
  deriving DecidableEq

/-- Result of one `Session.refresh` call. -/
inductive RefreshResult where
  | ok
  | err
  deriving DecidableEq

/-- The external interactions available to one iteration of the retry loop
in `Session.Tail`: the fetch result and, if needed, the refresh result. -/
structure TailIter where
  fetch : FetchResult
  refresh : RefreshResult
  deriving DecidableEq

/-- How the retry loop of `Session.Tail` ends: success (status < 400, the
`break`), a fatal fetch or refresh error, the "Giving up after n tries"
return, or exhaustion of the interaction script while the loop is still
running. -/
inductive TailOutcome where
  | success
  | fatalFetch
  | fatalRefresh
  | giveUp (tries : Nat)
  | exhausted
  deriving DecidableEq

/-- True exactly on the `giveUp` outcome. -/
def TailOutcome.isGiveUp : TailOutcome → Bool
  | .giveUp _ => true
  | _ => false

/-- The retry loop of `Session.Tail` (source lines 210-247), driven by a
script of external interactions.  Faithful to the source, `tries := 0` is
declared afresh inside every loop iteration (line 225), the refresh happens
before the `tries` check, and the loop gives up only when the incremented
`tries` equals 5. -/
def tailLoop : List TailIter → TailOutcome
  | [] => .exhausted
  | it :: rest =>
    let tries : Nat := 0
    match it.fetch with
    | .err => .fatalFetch
    | .status code =>
      if code < 400 then .success
      else
        match it.refresh with
        | .err => .fatalRefresh
        | .ok =>
          let tries := tries + 1
          if tries == 5 then .giveUp tries
          else tailLoop rest

/-- Capture group of the Go regexp `datePat`, i.e. `.*\(([^)]+)\).*`, under
leftmost-first greedy matching: the greedy leading `.*` backtracks from the
right, so the capture is the maximal run of non-')' characters after the
last '(' that is followed by at least one such character and then a ')'.
`none` models `FindStringSubmatch` returning nil. -/
def parenCapture : List Char → Option (List Char)
  | [] => Option.none
  | c :: rest =>
    match parenCapture rest with
    | some r => some r
    | Option.none =>
      if c = '(' then
        let cap := rest.takeWhile (fun x => x ≠ ')')
        if cap ≠ [] ∧ cap.length < rest.length then some cap else Option.none
      else Option.none

/-- Numeric value of a decimal digit character, `none` otherwise. -/
def digitVal (c : Char) : Option Nat :=
  if '0' ≤ c ∧ c ≤ '9' then some (c.toNat - '0'.toNat) else Option.none

/-- Value of a nonempty all-digit character run, `none` otherwise. -/
def digitsVal (cs : List Char) : Option Nat :=
  match cs with
  | [] => Option.none
  | _ =>
    cs.foldl (fun acc c => acc.bind fun n => (digitVal c).map fun d => 10 * n + d)
      (some 0)

/-- Largest value of Go's `int64`. -/
def int64Max : Int := 9223372036854775807

/-- Smallest value of Go's `int64`. -/
def int64Min : Int := -9223372036854775808

/-- Go's `strconv.ParseInt(s, 10, 64)`: an optional sign, then a nonempty
run of decimal digits, with the result required to fit in `int64`; every
other input is an error, modelled as `none`. -/
def parseIntGo (cs : List Char) : Option Int :=
  match cs with
  | '+' :: ds => (digitsVal ds).bind fun n =>
      if (n : Int) ≤ int64Max then some (n : Int) else Option.none
  | '-' :: ds => (digitsVal ds).bind fun n =>
      if int64Min ≤ -(n : Int) then some (-(n : Int)) else Option.none
  | ds => (digitsVal ds).bind fun n =>
      if (n : Int) ≤ int64Max then some (n : Int) else Option.none

/-- One raw record of the fetch response body, the `entryJson` struct. -/
structure EntryJson where
  wt : String
  trend : Int
  value : Int
  deriving DecidableEq

/-- Go's integer division, which truncates toward zero. -/
def goDiv (a b : Int) : Int := a.tdiv b

/-- Timestamp parse of one record: the capture of `datePat` on the `WT`
field, fed to `strconv.ParseInt` (source lines 267-275). -/
def parseWT (wt : String) : Option Int := (parenCapture wt.data).bind parseIntGo

/-- The `Entry` that `Session.Tail` builds from one parsed record:
`Value`, `Time = time.Unix(msecs/1000, 0)` and `Dir = numToDir[Trend]`
(source lines 277-280); `Raw` is left at its zero value.  The `getD 0` is
only ever used at records whose timestamp parse succeeded. -/
def convRec (ej : EntryJson) : Entry :=
  { time := goDiv ((parseWT ej.wt).getD 0) 1000
    value := ej.value
    dir := numToDir ej.trend
    raw := "" }

/-- Parsed timestamp seconds of one record, via `convRec`. -/
def recSeconds (ej : EntryJson) : Int := (convRec ej).time

/-- The record-parsing loop of `Session.Tail` (source lines 264-283): each
record is parsed in order and written at the mirrored index
`j = len - i - 1`, so a success returns the reversed conversions; the first
record whose timestamp does not match `datePat` or does not parse as an
integer aborts the whole call with an error and no entries. -/
def tailParse : List EntryJson → Except String (List Entry)
  | [] => .ok []
  | ej :: rest =>
    match parenCapture ej.wt.data with
    | Option.none => .error ("No match for date in " ++ ej.wt)
    | some cap =>
      match parseIntGo cap with
      | Option.none => .error "strconv.ParseInt: invalid syntax"
      | some _ =>
        match tailParse rest with
        | .error e => .error e
        | .ok es => .ok (es ++ [convRec ej])

/-- Strictly ascending timestamps, the ordering invariant of the stream. -/
def timesAsc (l : List Entry) : Prop := l.Pairwise fun a b => a.time < b.time

/-- Mutable state of the `Session.Stream` poll loop: `begin` (the cursor,
strictly-newer filter bound), `eta` (next scheduled poll, seconds) and
`penalty` (current backoff, whole seconds; the source uses
`penalty += time.Second` with a `10 * time.Second` bound). -/
structure PollState where
  begin : Int
  eta : Int
  penalty : Nat
  deriving DecidableEq

/-- One iteration of the `Session.Stream` loop body (source lines 302-341)
given the batch returned by `Tail`: the penalty is bumped by one second
while below 10; entries strictly newer than `begin` are sent in order;
`newest` is the last entry sent; if anything was sent, `begin` advances to
`newest.Time`, `eta` becomes `begin + 5` minutes and the penalty resets,
otherwise `begin` and `eta` are unchanged.  The `total` counter of the
source is log-only and not modelled. -/
def streamStep (s : PollState) (ents : List Entry) : PollState × List Entry :=
  let bumped := if s.penalty < 10 then s.penalty + 1 else s.penalty
  let emitted := ents.filter fun e => s.begin < e.time
  match emitted.getLast? with
  | some newest => ({ begin := newest.time, eta := newest.time + 300, penalty := 0 }, emitted)
  | Option.none => ({ begin := s.begin, eta := s.eta, penalty := bumped }, emitted)

/-- Events sent over the whole life of `Session.Stream`, one `streamStep`
per successful `Tail`, concatenated in send order. -/
def streamRun : PollState → List (List Entry) → List Entry
  | _, [] => []
  | s, b :: bs => (streamStep s b).2 ++ streamRun (streamStep s b).1 bs

/-- The trigger tree of the `trigger` package: the two stateful leaf kinds
`predicateTrigger` (fields `p`, `cur`) and `predicate2Trigger` (fields `p`,
`last`, `cur`), and the `anyTrigger`/`allTrigger` combinators, which are
slices of child triggers.  A nil entry pointer is `Option.none`. -/
inductive Trigger where
  | predicate (p : Entry → String) (cur : Option Entry)
  | predicate2 (p : Entry → Entry → String) (last cur : Option Entry)
  | any (children : List Trigger)
  | all (children : List Trigger)

/-- The `Predicate` constructor: a fresh single-entry leaf with `cur` nil. -/
def Predicate (p : Entry → String) : Trigger := .predicate p Option.none

/-- The `Predicate2` constructor: a fresh pairwise leaf, both pointers nil. -/
def Predicate2 (p : Entry → Entry → String) : Trigger :=
  .predicate2 p Option.none Option.none

/-- The `Any` constructor over a slice of children. -/
def Any (ts : List Trigger) : Trigger := .any ts

/-- The `All` constructor over a slice of children. -/
def All (ts : List Trigger) : Trigger := .all ts

mutual

/-- The `Observe` methods: a single-entry leaf stores the event as `cur`; a
pairwise leaf shifts `cur` into `last` and stores the event; a combinator
observes into every child in order.  Every leaf `Observe` in the source
returns a nil error, so the combinators' error aggregation (`errs`) always
yields nil and is not modelled. -/
def Trigger.observe : Trigger → Entry → Trigger
  | .predicate p _, e => .predicate p (some e)
  | .predicate2 p _ cur, e => .predicate2 p cur (some e)
  | .any ts, e => .any (Trigger.observeList ts e)
  | .all ts, e => .all (Trigger.observeList ts e)

/-- Observation over a combinator's children slice, in order. -/
def Trigger.observeList : List Trigger → Entry → List Trigger
  | [], _ => []
  | t :: ts, e => t.observe e :: Trigger.observeList ts e

end

mutual

/-- The `Active` methods, with a Go panic modelled as `none`: a
single-entry leaf dereferences `cur` (`p.p(*p.cur)`), panicking when it is
nil; a pairwise leaf returns false while `last` is nil, otherwise applies
its predicate to `*p.last, *p.cur`; `anyTrigger` returns true at the first
active child; `allTrigger` folds `active = active && t.Active()`, whose Go
`&&` skips a child once the accumulator is false. -/
def Trigger.active : Trigger → Option Bool
  | .predicate p cur => cur.map fun e => p e != ""
  | .predicate2 p last cur =>
    match last with
    | Option.none => some false
    | some l => cur.map fun c => p l c != ""
  | .any ts => Trigger.anyGo ts
  | .all ts => Trigger.allGo true ts

/-- The loop of `anyTrigger.Active`. -/
def Trigger.anyGo : List Trigger → Option Bool
  | [] => some false
  | t :: ts =>
    match t.active with
    | Option.none => Option.none
    | some true => some true
    | some false => Trigger.anyGo ts

/-- The loop of `allTrigger.Active`, accumulator included. -/
def Trigger.allGo : Bool → List Trigger → Option Bool
  | acc, [] => some acc
  | acc, t :: ts =>
    if acc then
      match t.active with
      | Option.none => Option.none
      | some b => Trigger.allGo b ts
    else Trigger.allGo false ts

end

mutual

/-- The `String` methods, with a Go panic modelled as `none`: leaves render
their predicate's current output (empty for a pairwise leaf before two
observations, nil dereference for a fresh single-entry leaf); a combinator
collects the rendering of each currently-active child, joins them with ","
and wraps them in its name — recomputed from the children at every call. -/
def Trigger.describe : Trigger → Option String
  | .predicate p cur => cur.map p
  | .predicate2 p last cur =>
    match last with
    | Option.none => some ""
    | some l => cur.map fun c => p l c
  | .any ts => (Trigger.strsGo ts).map fun strs =>
      "Any(" ++ String.intercalate "," strs ++ ")"
  | .all ts => (Trigger.strsGo ts).map fun strs =>
      "All(" ++ String.intercalate "," strs ++ ")"

/-- The collection loop shared by both combinators' `String` methods: for
each child in order, `Active` is consulted and, when true, `String` is
rendered and appended. -/
def Trigger.strsGo : List Trigger → Option (List String)
  | [] => some []
  | t :: ts =>
    match t.active with
    | Option.none => Option.none
    | some true =>
      match t.describe with
      | Option.none => Option.none
      | some s => (Trigger.strsGo ts).map fun strs => s :: strs
    | some false => Trigger.strsGo ts

end

/-- Observation of a whole event sequence, oldest first. -/
def observeAll (t : Trigger) (es : List Entry) : Trigger := es.foldl Trigger.observe t

/-- The closure passed to `Predicate` by `Below`: Go renders the message
with `fmt.Sprintf("%d < %d", ...)`, whose output on `int` equals
`toString` on `Int`. -/
def belowPred (bg : Int) (e : Entry) : String :=
  if e.value < bg then toString e.value ++ " < " ++ toString bg else ""

/-- The `Below` trigger constructor. -/
def Below (bg : Int) : Trigger := Predicate (belowPred bg)

/-- The closure passed to `Predicate` by `Above`. -/
def abovePred (bg : Int) (e : Entry) : String :=
  if bg < e.value then toString e.value ++ " > " ++ toString bg else ""

/-- The `Above` trigger constructor. -/
def Above (bg : Int) : Trigger := Predicate (abovePred bg)

/-- The closure passed to `Predicate` by `Arrow`: the first listed
direction equal to the entry's renders its arrow glyph. -/
def arrowPred (dirs : List Dir) (e : Entry) : String :=
  match dirs.find? fun d => d == e.dir with
  | some d => d.Arrow
  | Option.none => ""

/-- The `Arrow` trigger constructor over a slice of directions. -/
def Arrow (dirs : List Dir) : Trigger := Predicate (arrowPred dirs)

/-- Rendering of a rational to one decimal place, standing in for Go's
`%.1f` formatting of a `float64` (value truncated to tenths; the exact
rounding mode is immaterial: no proved property inspects these digits,
only whether the surrounding description string is empty). -/
def fmt1 (q : ℚ) : String :=
  let n : Int := goDiv (q.num * 10) (q.den : Int)
  let sign := if n < 0 then "-" else ""
  sign ++ toString (n.natAbs / 10) ++ "." ++ toString (n.natAbs % 10)

/-- Go's `e1.Time.Sub(e0.Time).Minutes()` on whole-second times: the
difference in minutes, as an exact rational. -/
def minutesBetween (t0 t1 : Int) : ℚ := ((t1 - t0 : Int) : ℚ) / 60

/-- The rate computed by `Delta`'s closure:
`float64(e1.Value-e0.Value) / e1.Time.Sub(e0.Time).Minutes()`, modelled
exactly over `ℚ`. -/
def rateOf (e0 e1 : Entry) : ℚ :=
  ((e1.value - e0.value : Int) : ℚ) / minutesBetween e0.time e1.time

/-- The closure passed to `Predicate2` by `Delta` (source part_001 lines
95-106): fires only when the rate and the threshold share a sign and the
rate is beyond the threshold in that direction. -/
def deltaPred (d : ℚ) (e0 e1 : Entry) : String :=
  let delta := rateOf e0 e1
  if delta < 0 ∧ d < 0 ∧ delta < d then
    "Delta(" ++ fmt1 delta ++ " < " ++ fmt1 d
  else if 0 < delta ∧ 0 < d ∧ d < delta then
    "Delta(" ++ fmt1 delta ++ " > " ++ fmt1 d
  else ""

/-- The `Delta` trigger constructor (threshold in mg/dL per minute). -/
def Delta (d : ℚ) : Trigger := Predicate2 (deltaPred d)

/-- Spec-side description list of §4.3: the renderings of exactly the
currently-active children of a combinator, in order. -/
def activeChildDescs (ts : List Trigger) : List String :=
  ts.filterMap fun t => if t.active = some true then t.describe else Option.none

/-- C1: the retry loop of `Session.Tail` was claimed to re-authenticate and
retry at most 5 times and then return a fatal "giving up" error.  It does
not: because `tries := 0` is re-declared inside every loop iteration, the
counter only ever reaches 1, the give-up branch is unreachable for every
possible interaction script, and six consecutive non-success responses
(with successful refreshes) leave the loop still running. -/
theorem tailLoop_never_gives_up :
    (∀ script : List TailIter, (tailLoop script).isGiveUp = false)
    ∧ tailLoop (List.replicate 6
        { fetch := FetchResult.status 500, refresh := RefreshResult.ok })
      = TailOutcome.exhausted := by
  constructor
  · intro script
    induction script with
    | nil => rfl
    | cons it rest ih =>
      unfold tailLoop
      cases it.fetch with
      | err => rfl
      | status code =>
        by_cases hc : code < 400
        · simp [hc, TailOutcome.isGiveUp]
        · cases it.refresh with
          | err => simp [hc, TailOutcome.isGiveUp]
          | ok => simpa [hc] using ih
  · rfl

/-- C3 counterexample: an out-of-table trend code is not mapped to the
`NotComputable`/`RateOutOfRange` fallback.  Indexing the Go map with the
unknown code 10 yields the map's zero value `Dir.None`. -/
theorem numToDir_unknown_is_None :
    numToDir 10 = Dir.None
    ∧ numToDir 10 ≠ Dir.NotComputable
    ∧ numToDir 10 ≠ Dir.RateOutOfRange := by decide

/-- C3 amended: `Tail` maps trend codes 0 through 9 to the trend
enumeration according to the fixed table, and any out-of-table code is
mapped to `Dir.None` — the Go map's zero value — i.e. it is silently
forwarded as "no trend" rather than failing over to
`NotComputable`/`RateOutOfRange`. -/
theorem numToDir_table_and_default :
    (numToDir 0 = Dir.None ∧ numToDir 1 = Dir.DoubleUp
      ∧ numToDir 2 = Dir.SingleUp ∧ numToDir 3 = Dir.FortyFiveUp
      ∧ numToDir 4 = Dir.Flat ∧ numToDir 5 = Dir.FortyFiveDown
      ∧ numToDir 6 = Dir.SingleDown ∧ numToDir 7 = Dir.DoubleDown
      ∧ numToDir 8 = Dir.NotComputable ∧ numToDir 9 = Dir.RateOutOfRange)
    ∧ ∀ n : Int, (n < 0 ∨ 9 < n) → numToDir n = Dir.None := by
  refine ⟨by decide, ?_⟩
  intro n hn
  have h0 : n ≠ 0 := by omega
  have h1 : n ≠ 1 := by omega
  have h2 : n ≠ 2 := by omega
  have h3 : n ≠ 3 := by omega
  have h4 : n ≠ 4 := by omega
  have h5 : n ≠ 5 := by omega
  have h6 : n ≠ 6 := by omega
  have h7 : n ≠ 7 := by omega
  have h8 : n ≠ 8 := by omega
  have h9 : n ≠ 9 := by omega
  have b0 : (n == 0) = false := beq_eq_false_iff_ne.mpr h0
  have b1 : (n == 1) = false := beq_eq_false_iff_ne.mpr h1
  have b2 : (n == 2) = false := beq_eq_false_iff_ne.mpr h2
  have b3 : (n == 3) = false := beq_eq_false_iff_ne.mpr h3
  have b4 : (n == 4) = false := beq_eq_false_iff_ne.mpr h4
  have b5 : (n == 5) = false := beq_eq_false_iff_ne.mpr h5
  have b6 : (n == 6) = false := beq_eq_false_iff_ne.mpr h6
  have b7 : (n == 7) = false := beq_eq_false_iff_ne.mpr h7
  have b8 : (n == 8) = false := beq_eq_false_iff_ne.mpr h8
  have b9 : (n == 9) = false := beq_eq_false_iff_ne.mpr h9
  simp [numToDir, numToDirTable, List.lookup, b0, b1, b2, b3, b4, b5, b6, b7, b8, b9]

/-- C3 amended, applied at the concrete out-of-table code 10. -/
theorem numToDir_table_and_default_witness :
    ((10 : Int) < 0 ∨ (9 : Int) < 10) ∧ numToDir 10 = Dir.None :=
  ⟨Or.inr (by norm_num), numToDir_table_and_default.2 10 (Or.inr (by norm_num))⟩

/-- Characterisation of a successful `tailParse`: every record's timestamp
parsed, and the result is the reversed per-record conversions. -/
theorem tailParse_ok_spec (ejs : List EntryJson) (es : List Entry)
    (h : tailParse ejs = .ok es) :
    (∀ ej ∈ ejs, (parseWT ej.wt).isSome) ∧ es = (ejs.map convRec).reverse := by
  induction ejs generalizing es with
  | nil =>
    simp only [tailParse, Except.ok.injEq] at h
    simp [← h]
  | cons ej rest ih =>
    unfold tailParse at h
    split at h
    · exact absurd h (by simp)
    next cap hcap =>
      split at h
      · exact absurd h (by simp)
      next msecs hint =>
        split at h
        next msg hrest => exact absurd h (by simp)
        next es' hrest =>
          simp only [Except.ok.injEq] at h
          obtain ⟨hall, hrev⟩ := ih es' hrest
          refine ⟨?_, ?_⟩
          · intro x hx
            rcases List.mem_cons.mp hx with hx' | hx'
            · subst hx'
              simp [parseWT, hcap, hint]
            · exact hall x hx'
          · rw [← h, hrev]
            simp

/-- C5: if any record of a fetched batch has an unparsable timestamp — no
parenthesised millisecond-epoch match or a non-integer match — then the
record loop of `Session.Tail` returns an error and no list of entries, in
particular never a partial prefix of the successfully parsed records. -/
theorem tailParse_all_or_nothing (ejs : List EntryJson)
    (h : ∃ ej ∈ ejs, parseWT ej.wt = Option.none) :
    (∃ msg, tailParse ejs = .error msg) ∧ ∀ es, tailParse ejs ≠ .ok es := by
  have hko : ∀ es, tailParse ejs ≠ .ok es := by
    intro es hok
    obtain ⟨hall, _⟩ := tailParse_ok_spec ejs es hok
    obtain ⟨ej, hmem, hnone⟩ := h
    have hs := hall ej hmem
    rw [hnone] at hs
    exact absurd hs (by simp)
  refine ⟨?_, hko⟩
  cases hp : tailParse ejs with
  | error msg => exact ⟨msg, rfl⟩
  | ok es => exact absurd hp (hko es)

/-- C5, applied to a batch whose single record has no date match. -/
theorem tailParse_all_or_nothing_witness :
    (∃ ej ∈ [({ wt := "nodate", trend := 4, value := 100 } : EntryJson)],
        parseWT ej.wt = Option.none)
    ∧ ∃ msg, tailParse [({ wt := "nodate", trend := 4, value := 100 } : EntryJson)]
        = .error msg := by
  have hx : ∃ ej ∈ [({ wt := "nodate", trend := 4, value := 100 } : EntryJson)],
      parseWT ej.wt = Option.none :=
    ⟨{ wt := "nodate", trend := 4, value := 100 }, by simp, by rfl⟩
  exact ⟨hx, (tailParse_all_or_nothing _ hx).1⟩

/-- C6: on a batch whose records are in strictly descending parsed
timestamp order — the upstream's newest-first order — the record loop of
`Session.Tail` returns exactly the per-record conversions (value, parsed
timestamp, mapped trend) reordered into strictly ascending timestamp
order. -/
theorem tailParse_reverses_descending (ejs : List EntryJson) (es : List Entry)
    (hok : tailParse ejs = .ok es)
    (hdesc : ejs.Pairwise fun a b => recSeconds b < recSeconds a) :
    es = (ejs.map convRec).reverse ∧ timesAsc es
    ∧ ∀ ej ∈ ejs, (parseWT ej.wt).isSome := by
  obtain ⟨hall, hrev⟩ := tailParse_ok_spec ejs es hok
  refine ⟨hrev, ?_, hall⟩
  rw [hrev]
  unfold timesAsc
  rw [List.pairwise_reverse]
  exact hdesc.map convRec fun a b hab => hab

/-- C6, applied to a concrete two-record newest-first batch. -/
theorem tailParse_reverses_descending_witness :
    tailParse
        [⟨"/Date(1600000600000)/", 4, 120⟩, ⟨"/Date(1600000000000)/", 5, 110⟩]
      = .ok [⟨1600000000, 110, Dir.FortyFiveDown, ""⟩,
             ⟨1600000600, 120, Dir.Flat, ""⟩]
    ∧ timesAsc [⟨1600000000, 110, Dir.FortyFiveDown, ""⟩,
                ⟨1600000600, 120, Dir.Flat, ""⟩] := by
  have hok : tailParse
      [⟨"/Date(1600000600000)/", 4, 120⟩, ⟨"/Date(1600000000000)/", 5, 110⟩]
      = .ok [⟨1600000000, 110, Dir.FortyFiveDown, ""⟩,
             ⟨1600000600, 120, Dir.Flat, ""⟩] := by rfl
  have h := tailParse_reverses_descending _ _ hok (by decide)
  exact ⟨hok, h.2.1⟩

/-- The events one poll sends are exactly the batch entries strictly newer
than the cursor, in batch order. -/
theorem streamStep_emits (s : PollState) (b : List Entry) :
    (streamStep s b).2 = b.filter fun e => s.begin < e.time := by
  rcases h : (b.filter fun e => s.begin < e.time).getLast? with _ | x <;>
    simp [streamStep, h]

/-- After a poll that sent anything, the cursor is the timestamp of the
last event sent. -/
theorem streamStep_begin_eq_last (s : PollState) (b : List Entry) (x : Entry)
    (h : ((streamStep s b).2).getLast? = some x) :
    (streamStep s b).1.begin = x.time := by
  rw [streamStep_emits] at h
  simp [streamStep, h]

/-- After a poll that sent nothing, cursor and schedule are unchanged. -/
theorem streamStep_empty_state (s : PollState) (b : List Entry)
    (h : (streamStep s b).2 = []) :
    (streamStep s b).1.begin = s.begin ∧ (streamStep s b).1.eta = s.eta := by
  rw [streamStep_emits] at h
  simp [streamStep, h]

/-- After a poll that sent nothing, the penalty grew by one second while
below the 10-second bound. -/
theorem streamStep_penalty_empty (s : PollState) (b : List Entry)
    (h : (streamStep s b).2 = []) :
    (streamStep s b).1.penalty
      = if s.penalty < 10 then s.penalty + 1 else s.penalty := by
  rw [streamStep_emits] at h
  simp [streamStep, h]

/-- After a poll that sent at least one event, the penalty is reset. -/
theorem streamStep_penalty_emit (s : PollState) (b : List Entry)
    (h : (streamStep s b).2 ≠ []) :
    (streamStep s b).1.penalty = 0 := by
  rw [streamStep_emits] at h
  obtain ⟨x, hx⟩ := Option.isSome_iff_exists.mp (List.getLast?_isSome.mpr h)
  simp [streamStep, hx]

/-- In a strictly ascending batch, every entry's timestamp is bounded by
the last entry's. -/
theorem timesAsc_le_getLast (l : List Entry) (hl : timesAsc l) (x : Entry)
    (hx : l.getLast? = some x) : ∀ a ∈ l, a.time ≤ x.time := by
  rcases l.eq_nil_or_concat with rfl | ⟨l', y, hcat⟩
  · simp at hx
  · rw [List.concat_eq_append] at hcat
    subst hcat
    rw [List.getLast?_concat] at hx
    have hyx : y = x := by simpa using hx
    subst hyx
    intro a ha
    rcases List.mem_append.mp ha with ha' | ha'
    · exact le_of_lt ((List.pairwise_append.mp hl).2.2 a ha' y (by simp))
    · simp at ha'
      simp [ha']

/-- Membership of the value of `getLast?`. -/
theorem mem_of_getLast?_eq {α : Type} (l : List α) (x : α)
    (h : l.getLast? = some x) : x ∈ l := by
  rcases l.eq_nil_or_concat with rfl | ⟨l', y, hcat⟩
  · simp at h
  · rw [List.concat_eq_append] at hcat
    subst hcat
    rw [List.getLast?_concat] at h
    have hyx : y = x := by simpa using h
    subst hyx
    simp

/-- Everything the stream ever sends is strictly ascending in timestamp
and strictly newer than the starting cursor, provided each fetched batch
is internally strictly ascending. -/
theorem streamRun_spec (s : PollState) (bs : List (List Entry))
    (hb : ∀ b ∈ bs, timesAsc b) :
    timesAsc (streamRun s bs) ∧ ∀ e ∈ streamRun s bs, s.begin < e.time := by
  induction bs generalizing s with
  | nil => simp [streamRun, timesAsc]
  | cons b rest ih =>
    have hba : timesAsc b := hb b (by simp)
    have hbr : ∀ x ∈ rest, timesAsc x := fun x hx => hb x (by simp [hx])
    have hem : (streamStep s b).2 = b.filter fun e => s.begin < e.time :=
      streamStep_emits s b
    have hasc : timesAsc (streamStep s b).2 := by
      rw [hem]; exact hba.sublist (List.filter_sublist b)
    have hnew : ∀ e ∈ (streamStep s b).2, s.begin < e.time := by
      intro e he
      rw [hem] at he
      simpa using (List.mem_filter.mp he).2
    rcases hcase : ((streamStep s b).2).getLast? with _ | x
    · have hempty : (streamStep s b).2 = [] := by
        simpa using List.getLast?_isSome.not.mp (by simp [hcase])
      have hbegin : (streamStep s b).1.begin = s.begin :=
        (streamStep_empty_state s b hempty).1
      obtain ⟨hasc', hnew'⟩ := ih (streamStep s b).1 hbr
      rw [hbegin] at hnew'
      constructor
      · rw [streamRun, hempty]
        simpa using hasc'
      · rw [streamRun, hempty]
        simpa using hnew'
    · have hbegin : (streamStep s b).1.begin = x.time :=
        streamStep_begin_eq_last s b x hcase
      have hle : ∀ a ∈ (streamStep s b).2, a.time ≤ x.time :=
        timesAsc_le_getLast _ hasc x hcase
      have hxmem : x ∈ (streamStep s b).2 := mem_of_getLast?_eq _ x hcase
      have hxnew : s.begin < x.time := hnew x hxmem
      obtain ⟨hasc', hnew'⟩ := ih (streamStep s b).1 hbr
      rw [hbegin] at hnew'
      constructor
      · rw [streamRun]
        unfold timesAsc at hasc hasc' ⊢
        refine List.pairwise_append.mpr ⟨hasc, hasc', ?_⟩
        intro a ha c hc
        exact lt_of_le_of_lt (hle a ha) (hnew' c hc)
      · rw [streamRun]
        intro e he
        rcases List.mem_append.mp he with he' | he'
        · exact hnew e he'
        · exact lt_trans hxnew (hnew' e he')

/-- C2: when every fetched batch is internally strictly ascending in
timestamp, the events `Session.Stream` sends are strictly ascending across
all polls, so each timestamp is sent at most once; each poll sends exactly
the batch entries strictly newer than the current cursor `begin`; and the
cursor advances to the newest sent timestamp after every poll that sent
anything, staying put otherwise. -/
theorem stream_strictly_ascending (s : PollState) (bs : List (List Entry))
    (hb : ∀ b ∈ bs, timesAsc b) :
    timesAsc (streamRun s bs)
    ∧ (∀ e ∈ streamRun s bs, s.begin < e.time)
    ∧ ((streamRun s bs).map Entry.time).Nodup
    ∧ (∀ (st : PollState) (b : List Entry),
        (streamStep st b).2 = b.filter fun e => st.begin < e.time)
    ∧ (∀ (st : PollState) (b : List Entry) (x : Entry),
        ((streamStep st b).2).getLast? = some x →
          (streamStep st b).1.begin = x.time)
    ∧ (∀ (st : PollState) (b : List Entry),
        (streamStep st b).2 = [] → (streamStep st b).1.begin = st.begin) := by
  obtain ⟨hasc, hnew⟩ := streamRun_spec s bs hb
  refine ⟨hasc, hnew, ?_, streamStep_emits, streamStep_begin_eq_last,
    fun st b h => (streamStep_empty_state st b h).1⟩
  have hmap : ((streamRun s bs).map Entry.time).Pairwise (· < ·) :=
    List.Pairwise.map Entry.time (fun a b hab => hab) hasc
  exact hmap.imp fun hab => ne_of_lt hab

/-- C2, applied to two overlapping strictly ascending batches: the shared
entry is sent exactly once and the stream stays strictly ascending. -/
theorem stream_strictly_ascending_witness :
    (∀ b ∈ [[({ time := 100, value := 1, dir := Dir.Flat, raw := "" } : Entry),
             { time := 200, value := 2, dir := Dir.Flat, raw := "" }],
            [({ time := 200, value := 2, dir := Dir.Flat, raw := "" } : Entry),
             { time := 300, value := 3, dir := Dir.Flat, raw := "" }]], timesAsc b)
    ∧ timesAsc (streamRun { begin := 0, eta := 0, penalty := 0 }
        [[{ time := 100, value := 1, dir := Dir.Flat, raw := "" },
          { time := 200, value := 2, dir := Dir.Flat, raw := "" }],
         [{ time := 200, value := 2, dir := Dir.Flat, raw := "" },
          { time := 300, value := 3, dir := Dir.Flat, raw := "" }]])
    ∧ streamRun { begin := 0, eta := 0, penalty := 0 }
        [[{ time := 100, value := 1, dir := Dir.Flat, raw := "" },
          { time := 200, value := 2, dir := Dir.Flat, raw := "" }],
         [{ time := 200, value := 2, dir := Dir.Flat, raw := "" },
          { time := 300, value := 3, dir := Dir.Flat, raw := "" }]]
      = [{ time := 100, value := 1, dir := Dir.Flat, raw := "" },
         { time := 200, value := 2, dir := Dir.Flat, raw := "" },
         { time := 300, value := 3, dir := Dir.Flat, raw := "" }] := by
  have hb : ∀ b ∈ [[({ time := 100, value := 1, dir := Dir.Flat, raw := "" } : Entry),
             { time := 200, value := 2, dir := Dir.Flat, raw := "" }],
            [({ time := 200, value := 2, dir := Dir.Flat, raw := "" } : Entry),
             { time := 300, value := 3, dir := Dir.Flat, raw := "" }]], timesAsc b := by
    intro b hbm
    unfold timesAsc
    rcases List.mem_cons.mp hbm with rfl | hbm'
    · decide
    · rcases List.mem_cons.mp hbm' with rfl | hbm''
      · decide
      · simp at hbm''
  have h := stream_strictly_ascending { begin := 0, eta := 0, penalty := 0 } _ hb
  exact ⟨hb, h.1, by rfl⟩

/-- C4: in the `Session.Stream` loop, a poll that sends nothing bumps the
penalty by exactly one second while it is below the 10-second bound
(leaving it at the bound otherwise) and leaves both the cursor `begin` and
the schedule `eta` unchanged; a poll that sends at least one event resets
the penalty to zero; and the penalty never exceeds 10 seconds. -/
theorem stream_penalty_backoff (s : PollState) (b : List Entry) :
    ((streamStep s b).2 = [] →
        ((streamStep s b).1.penalty
            = if s.penalty < 10 then s.penalty + 1 else s.penalty)
        ∧ (s.penalty < 10 → (streamStep s b).1.penalty = s.penalty + 1)
        ∧ (streamStep s b).1.begin = s.begin
        ∧ (streamStep s b).1.eta = s.eta)
    ∧ ((streamStep s b).2 ≠ [] → (streamStep s b).1.penalty = 0)
    ∧ (s.penalty ≤ 10 → (streamStep s b).1.penalty ≤ 10) := by
  refine ⟨?_, streamStep_penalty_emit s b, ?_⟩
  · intro h
    obtain ⟨hbg, het⟩ := streamStep_empty_state s b h
    refine ⟨streamStep_penalty_empty s b h, ?_, hbg, het⟩
    intro hlt
    rw [streamStep_penalty_empty s b h, if_pos hlt]
  · intro hcap
    by_cases h : (streamStep s b).2 = []
    · rw [streamStep_penalty_empty s b h]
      split <;> omega
    · rw [streamStep_penalty_emit s b h]
      omega

/-- C4, applied concretely: an empty poll at penalty 3 bumps it to 4 and
keeps cursor and schedule; a poll that sends one event resets it to 0. -/
theorem stream_penalty_backoff_witness :
    (streamStep { begin := 0, eta := 7, penalty := 3 } []).1.penalty = 4
    ∧ (streamStep { begin := 0, eta := 7, penalty := 3 } []).1.begin = 0
    ∧ (streamStep { begin := 0, eta := 7, penalty := 3 } []).1.eta = 7
    ∧ (streamStep { begin := 0, eta := 7, penalty := 3 }
        [{ time := 5, value := 100, dir := Dir.Flat, raw := "" }]).1.penalty = 0 := by
  have h1 := (stream_penalty_backoff { begin := 0, eta := 7, penalty := 3 } []).1 (by rfl)
  have h2 := (stream_penalty_backoff { begin := 0, eta := 7, penalty := 3 }
      [{ time := 5, value := 100, dir := Dir.Flat, raw := "" }]).2.1
    (by rw [streamStep_emits]; decide)
  refine ⟨?_, h1.2.2.1, h1.2.2.2, h2⟩
  rw [h1.1]
  rfl

/-- A string with a nonempty character list is not the empty string. -/
theorem str_ne_empty_of_data (s : String) (h : s.data ≠ []) : (s != "") = true := by
  rw [bne_iff_ne]
  intro hs
  apply h
  rw [hs]

/-- Appending cannot erase a nonempty character list. -/
theorem prefixed_ne_empty (p : String) (hp : p.data ≠ []) (t : String) :
    (p ++ t).data ≠ [] := by
  rw [String.data_append]
  intro h
  exact hp (List.append_eq_nil.mp h).1

/-- The loop of `anyTrigger.Active` returns true exactly when some child
is active, provided no child's query panics. -/
theorem anyGo_spec (ts : List Trigger) (ha : ∀ t ∈ ts, (t.active).isSome) :
    Trigger.anyGo ts = some true ↔ ∃ t ∈ ts, t.active = some true := by
  induction ts with
  | nil => simp [Trigger.anyGo]
  | cons t ts ih =>
    have hmem : t ∈ t :: ts := by simp
    obtain ⟨b, hb⟩ := Option.isSome_iff_exists.mp (ha t hmem)
    have ih' := ih fun x hx => ha x (by simp [hx])
    cases b with
    | true =>
      have hstep : Trigger.anyGo (t :: ts) = some true := by
        simp [Trigger.anyGo, hb]
      rw [hstep]
      simp only [true_iff, eq_self_iff_true]
      exact ⟨t, hmem, hb⟩
    | false =>
      have hstep : Trigger.anyGo (t :: ts) = Trigger.anyGo ts := by
        simp [Trigger.anyGo, hb]
      rw [hstep, ih']
      constructor
      · rintro ⟨x, hx, hax⟩
        exact ⟨x, by simp [hx], hax⟩
      · rintro ⟨x, hx, hax⟩
        rcases List.mem_cons.mp hx with rfl | hx'
        · rw [hb] at hax
          exact absurd hax (by simp)
        · exact ⟨x, hx', hax⟩

/-- Once the accumulator of `allTrigger.Active` is false it stays false,
and Go's short-circuiting `&&` queries no further child. -/
theorem allGo_false (ts : List Trigger) : Trigger.allGo false ts = some false := by
  induction ts with
  | nil => rfl
  | cons t ts ih => simpa [Trigger.allGo] using ih

/-- The loop of `allTrigger.Active` returns true exactly when every child
is active, provided no child's query panics. -/
theorem allGo_spec (ts : List Trigger) (ha : ∀ t ∈ ts, (t.active).isSome) :
    Trigger.allGo true ts = some true ↔ ∀ t ∈ ts, t.active = some true := by
  induction ts with
  | nil => simp [Trigger.allGo]
  | cons t ts ih =>
    obtain ⟨b, hb⟩ := Option.isSome_iff_exists.mp (ha t (by simp))
    have ih' := ih fun x hx => ha x (by simp [hx])
    cases b with
    | true =>
      have hstep : Trigger.allGo true (t :: ts) = Trigger.allGo true ts := by
        simp [Trigger.allGo, hb]
      rw [hstep, ih']
      constructor
      · intro h x hx
        rcases List.mem_cons.mp hx with rfl | hx'
        · exact hb
        · exact h x hx'
      · intro h x hx
        exact h x (by simp [hx])
    | false =>
      have hstep : Trigger.allGo true (t :: ts) = some false := by
        simp [Trigger.allGo, hb, allGo_false]
      rw [hstep]
      constructor
      · intro h
        exact absurd h (by simp)
      · intro h
        have hx := h t (by simp)
        rw [hb] at hx
        exact absurd hx (by simp)

/-- The collection loop of the combinators' `String` methods renders
exactly the currently-active children, in order, provided no consulted
child panics. -/
theorem strsGo_spec (ts : List Trigger)
    (ha : ∀ t ∈ ts, (t.active).isSome)
    (hd : ∀ t ∈ ts, t.active = some true → (t.describe).isSome) :
    Trigger.strsGo ts = some (activeChildDescs ts) := by
  induction ts with
  | nil => simp [Trigger.strsGo, activeChildDescs]
  | cons t ts ih =>
    obtain ⟨b, hb⟩ := Option.isSome_iff_exists.mp (ha t (by simp))
    have ih' := ih (fun x hx => ha x (by simp [hx]))
      (fun x hx => hd x (by simp [hx]))
    cases b with
    | true =>
      obtain ⟨s, hs⟩ := Option.isSome_iff_exists.mp (hd t (by simp) hb)
      have hstep : Trigger.strsGo (t :: ts)
          = (Trigger.strsGo ts).map fun strs => s :: strs := by
        simp [Trigger.strsGo, hb, hs]
      rw [hstep, ih']
      simp [activeChildDescs, List.filterMap_cons, hb, hs]
    | false =>
      have hstep : Trigger.strsGo (t :: ts) = Trigger.strsGo ts := by
        simp [Trigger.strsGo, hb]
      rw [hstep, ih']
      simp [activeChildDescs, List.filterMap_cons, hb]

/-- C8: for any current children state (hence after any observation
sequence), an `All` combinator is active exactly when every child is and
an `Any` combinator exactly when at least one child is, and each
combinator's rendering is recomputed from the children on the call: it is
the renderings of exactly the currently-active children, comma-joined and
wrapped in the combinator's name.  The hypotheses say no consulted child
query panics (their queries return). -/
theorem combinators_active_describe (ts : List Trigger)
    (ha : ∀ t ∈ ts, (t.active).isSome)
    (hd : ∀ t ∈ ts, t.active = some true → (t.describe).isSome) :
    ((All ts).active = some true ↔ ∀ t ∈ ts, t.active = some true)
    ∧ ((Any ts).active = some true ↔ ∃ t ∈ ts, t.active = some true)
    ∧ (All ts).describe
        = some ("All(" ++ String.intercalate "," (activeChildDescs ts) ++ ")")
    ∧ (Any ts).describe
        = some ("Any(" ++ String.intercalate "," (activeChildDescs ts) ++ ")") := by
  refine ⟨?_, ?_, ?_, ?_⟩
  · have h1 : (All ts).active = Trigger.allGo true ts := by
      simp [All, Trigger.active]
    rw [h1]
    exact allGo_spec ts ha
  · have h1 : (Any ts).active = Trigger.anyGo ts := by
      simp [Any, Trigger.active]
    rw [h1]
    exact anyGo_spec ts ha
  · have h1 : (All ts).describe = (Trigger.strsGo ts).map fun strs =>
        "All(" ++ String.intercalate "," strs ++ ")" := by
      simp [All, Trigger.describe]
    rw [h1, strsGo_spec ts ha hd]
    rfl
  · have h1 : (Any ts).describe = (Trigger.strsGo ts).map fun strs =>
        "Any(" ++ String.intercalate "," strs ++ ")" := by
      simp [Any, Trigger.describe]
    rw [h1, strsGo_spec ts ha hd]
    rfl

/-- C8, applied to `All(Above(70), Below(180))` after observing the value
150: both children are active and the rendering lists both. -/
theorem combinators_active_describe_witness :
    (All [(Above 70).observe { time := 0, value := 150, dir := Dir.Flat, raw := "" },
          (Below 180).observe { time := 0, value := 150, dir := Dir.Flat, raw := "" }]).active
      = some true
    ∧ (All [(Above 70).observe { time := 0, value := 150, dir := Dir.Flat, raw := "" },
            (Below 180).observe { time := 0, value := 150, dir := Dir.Flat, raw := "" }]).describe
      = some "All(150 > 70,150 < 180)" := by
  have ha : ∀ t ∈ [(Above 70).observe { time := 0, value := 150, dir := Dir.Flat, raw := "" },
      (Below 180).observe { time := 0, value := 150, dir := Dir.Flat, raw := "" }],
      (t.active).isSome := by
    intro t ht
    rcases List.mem_cons.mp ht with rfl | ht'
    · rfl
    · rcases List.mem_cons.mp ht' with rfl | ht''
      · rfl
      · exact absurd ht'' (by simp)
  have hd : ∀ t ∈ [(Above 70).observe { time := 0, value := 150, dir := Dir.Flat, raw := "" },
      (Below 180).observe { time := 0, value := 150, dir := Dir.Flat, raw := "" }],
      t.active = some true → (t.describe).isSome := by
    intro t ht _
    rcases List.mem_cons.mp ht with rfl | ht'
    · rfl
    · rcases List.mem_cons.mp ht' with rfl | ht''
      · rfl
      · exact absurd ht'' (by simp)
  have h := combinators_active_describe _ ha hd
  refine ⟨h.1.mpr ?_, ?_⟩
  · intro t ht
    rcases List.mem_cons.mp ht with rfl | ht'
    · rfl
    · rcases List.mem_cons.mp ht' with rfl | ht''
      · rfl
      · exact absurd ht'' (by simp)
  · rw [h.2.2.1]
    rfl

/-- Observation threading of a pairwise leaf: after any prefix and then
two final events, `last` and `cur` hold exactly those two events. -/
theorem observeAll_pred2_append (p : Entry → Entry → String)
    (pre : List Entry) (a b : Entry) :
    ∀ l c : Option Entry,
      observeAll (.predicate2 p l c) (pre ++ [a, b])
        = .predicate2 p (some a) (some b) := by
  induction pre with
  | nil => intro l c; rfl
  | cons x pre ih =>
    intro l c
    show observeAll (.predicate2 p c (some x)) (pre ++ [a, b]) = _
    exact ih c (some x)

/-- C9: a pairwise predicate trigger reports inactive and renders the
empty string until at least two events have been observed; from two
observations on, the predicate is applied to exactly the
immediately-preceding and the latest observed events. -/
theorem predicate2_needs_two (p : Entry → Entry → String) (es : List Entry) :
    (es.length ≤ 1 →
        (observeAll (Predicate2 p) es).active = some false
        ∧ (observeAll (Predicate2 p) es).describe = some "")
    ∧ ∀ (pre : List Entry) (a b : Entry), es = pre ++ [a, b] →
        (observeAll (Predicate2 p) es).active = some (p a b != "")
        ∧ (observeAll (Predicate2 p) es).describe = some (p a b) := by
  constructor
  · intro hlen
    rcases es with _ | ⟨a, _ | ⟨b, rest⟩⟩
    · exact ⟨rfl, rfl⟩
    · exact ⟨rfl, rfl⟩
    · simp at hlen
  · rintro pre a b rfl
    rw [show Predicate2 p = Trigger.predicate2 p Option.none Option.none from rfl,
      observeAll_pred2_append p pre a b Option.none Option.none]
    exact ⟨rfl, rfl⟩

/-- C9, applied to the `Delta(-2)` pairwise trigger with zero, one and two
observations. -/
theorem predicate2_needs_two_witness :
    (observeAll (Predicate2 (deltaPred (-2))) []).active = some false
    ∧ (observeAll (Predicate2 (deltaPred (-2)))
        [{ time := 0, value := 150, dir := Dir.Flat, raw := "" }]).describe = some ""
    ∧ (observeAll (Predicate2 (deltaPred (-2)))
        [{ time := 0, value := 150, dir := Dir.Flat, raw := "" },
         { time := 300, value := 130, dir := Dir.Flat, raw := "" }]).describe
      = some (deltaPred (-2) { time := 0, value := 150, dir := Dir.Flat, raw := "" }
          { time := 300, value := 130, dir := Dir.Flat, raw := "" }) :=
  ⟨((predicate2_needs_two (deltaPred (-2)) []).1 (by simp)).1,
   ((predicate2_needs_two (deltaPred (-2)) _).1 (by simp)).2,
   ((predicate2_needs_two (deltaPred (-2)) _).2 [] _ _ rfl).2⟩

/-- C10: a single-entry predicate trigger — `Predicate` and thus `Below`,
`Above` and `Arrow` — dereferences its nil `cur` pointer when `Active` or
`String` is called before any observation: the Go program panics, modelled
as `Option.none`.  One observation makes both queries safe, and pairwise
triggers instead answer false and the empty string in the fresh state. -/
theorem predicate_nil_before_observe :
    ∀ (p : Entry → String) (bg : Int) (dirs : List Dir) (e : Entry),
      (Predicate p).active = Option.none ∧ (Predicate p).describe = Option.none
      ∧ (Below bg).active = Option.none ∧ (Below bg).describe = Option.none
      ∧ (Above bg).active = Option.none ∧ (Above bg).describe = Option.none
      ∧ (Arrow dirs).active = Option.none ∧ (Arrow dirs).describe = Option.none
      ∧ ((Predicate p).observe e).active = some (p e != "")
      ∧ ((Predicate p).observe e).describe = some (p e)
      ∧ ∀ q : Entry → Entry → String,
          (Predicate2 q).active = some false ∧ (Predicate2 q).describe = some "" :=
  fun _ _ _ _ =>
    ⟨rfl, rfl, rfl, rfl, rfl, rfl, rfl, rfl, rfl, rfl, fun _ => ⟨rfl, rfl⟩⟩

/-- The `Delta` closure produces a nonempty rendering exactly when the
computed rate and the threshold share a sign and the rate is beyond the
threshold in that direction. -/
theorem deltaPred_active_iff (d : ℚ) (e0 e1 : Entry) :
    (deltaPred d e0 e1 != "") = true ↔
      ((rateOf e0 e1 < 0 ∧ d < 0 ∧ rateOf e0 e1 < d)
        ∨ (0 < rateOf e0 e1 ∧ 0 < d ∧ d < rateOf e0 e1)) := by
  have hd : deltaPred d e0 e1 =
      if rateOf e0 e1 < 0 ∧ d < 0 ∧ rateOf e0 e1 < d then
        "Delta(" ++ fmt1 (rateOf e0 e1) ++ " < " ++ fmt1 d
      else if 0 < rateOf e0 e1 ∧ 0 < d ∧ d < rateOf e0 e1 then
        "Delta(" ++ fmt1 (rateOf e0 e1) ++ " > " ++ fmt1 d
      else "" := rfl
  rw [hd]
  split_ifs with h1 h2
  · constructor
    · intro _
      exact Or.inl h1
    · intro _
      exact str_ne_empty_of_data _
        (prefixed_ne_empty _ (prefixed_ne_empty "Delta(" (by decide) _) _)
  · constructor
    · intro _
      exact Or.inr h2
    · intro _
      exact str_ne_empty_of_data _
        (prefixed_ne_empty _ (prefixed_ne_empty "Delta(" (by decide) _) _)
  · constructor
    · intro h
      exact absurd h (by decide)
    · intro h
      rcases h with h | h
      · exact absurd h h1
      · exact absurd h h2

/-- C7: the pairwise `Delta(d)` trigger, observing an earlier event `e0`
then a later event `e1`, is active exactly when the rate
`(e1.Value - e0.Value) / minutes(e1.Time - e0.Time)` has the same sign as
`d` and is beyond `d` in that direction — it never fires on an
opposite-direction move — and `Delta(0)` is never active; with threshold
-2, the pair (t=0, 150) then (t=5min, 130) has rate -4 and is active, and
(t=0, 150) then (t=5min, 145) has rate -1 and is not. -/
theorem delta_trigger_direction :
    (∀ e0 e1 : Entry, (((Delta 0).observe e0).observe e1).active = some false)
    ∧ (∀ (d : ℚ) (e0 e1 : Entry), e0.time < e1.time →
        ((((Delta d).observe e0).observe e1).active = some true ↔
          ((rateOf e0 e1 < 0 ∧ d < 0 ∧ rateOf e0 e1 < d)
            ∨ (0 < rateOf e0 e1 ∧ 0 < d ∧ d < rateOf e0 e1))))
    ∧ (((Delta (-2)).observe { time := 0, value := 150, dir := Dir.Flat, raw := "" }).observe
        { time := 300, value := 130, dir := Dir.Flat, raw := "" }).active = some true
    ∧ (((Delta (-2)).observe { time := 0, value := 150, dir := Dir.Flat, raw := "" }).observe
        { time := 300, value := 145, dir := Dir.Flat, raw := "" }).active = some false := by
  have hact : ∀ (d : ℚ) (e0 e1 : Entry),
      (((Delta d).observe e0).observe e1).active = some (deltaPred d e0 e1 != "") :=
    fun _ _ _ => rfl
  have hiff : ∀ (d : ℚ) (e0 e1 : Entry),
      ((((Delta d).observe e0).observe e1).active = some true ↔
        ((rateOf e0 e1 < 0 ∧ d < 0 ∧ rateOf e0 e1 < d)
          ∨ (0 < rateOf e0 e1 ∧ 0 < d ∧ d < rateOf e0 e1))) := by
    intro d e0 e1
    rw [hact, Option.some_inj]
    exact deltaPred_active_iff d e0 e1
  refine ⟨?_, fun d e0 e1 _ => hiff d e0 e1, ?_, ?_⟩
  · intro e0 e1
    rw [hact]
    have hfalse : (deltaPred 0 e0 e1 != "") = false := by
      by_contra hne
      have htrue : (deltaPred 0 e0 e1 != "") = true := by
        revert hne
        cases deltaPred 0 e0 e1 != "" <;> simp
      rcases (deltaPred_active_iff 0 e0 e1).mp htrue with h | h
      · exact absurd h.2.1 (by norm_num)
      · exact absurd h.2.1 (by norm_num)
    rw [hfalse]
  · exact (hiff (-2) _ _).mpr (Or.inl (by norm_num [rateOf, minutesBetween]))
  · rw [hact]
    have hfalse : (deltaPred (-2)
        { time := 0, value := 150, dir := Dir.Flat, raw := "" }
        { time := 300, value := 145, dir := Dir.Flat, raw := "" } != "") = false := by
      by_contra hne
      have htrue : (deltaPred (-2)
          { time := 0, value := 150, dir := Dir.Flat, raw := "" }
          { time := 300, value := 145, dir := Dir.Flat, raw := "" } != "") = true := by
        revert hne
        cases deltaPred (-2)
          { time := 0, value := 150, dir := Dir.Flat, raw := "" }
          { time := 300, value := 145, dir := Dir.Flat, raw := "" } != "" <;> simp
      have hr : rateOf { time := 0, value := 150, dir := Dir.Flat, raw := "" }
          { time := 300, value := 145, dir := Dir.Flat, raw := "" } = -1 := by
        norm_num [rateOf, minutesBetween]
      rcases (deltaPred_active_iff (-2) _ _).mp htrue with h | h
      · rw [hr] at h
        exact absurd h.2.2 (by norm_num)
      · rw [hr] at h
        exact absurd h.1 (by norm_num)
    rw [hfalse]

/-- C7, applied at the concrete falling pair with threshold -2. -/
theorem delta_trigger_direction_witness :
    ((0 : Int) < 300)
    ∧ (((Delta (-2)).observe { time := 0, value := 150, dir := Dir.Flat, raw := "" }).observe
        { time := 300, value := 130, dir := Dir.Flat, raw := "" }).active = some true :=
  ⟨by norm_num,
   (delta_trigger_direction.2.1 (-2)
      { time := 0, value := 150, dir := Dir.Flat, raw := "" }
      { time := 300, value := 130, dir := Dir.Flat, raw := "" }
      (by norm_num)).mpr
    (Or.inl (by norm_num [rateOf, minutesBetween]))⟩
